import Mathlib

set_option maxRecDepth 100000

/-!
Verification of the subtitle time-shift transform, file discovery and batch
orchestration of `breathe3.py` (class SpeedOptimizedConverter).

The relevant Python functions are shallowly embedded below:

* `adjust_time`       — `SpeedOptimizedConverter.adjust_time` (lines 492-509),
  with the float arithmetic carried out over exact rationals;
* `adjust_time_fp`    — the same function with the IEEE-754 binary64 rounding
  of CPython floats modelled exactly (used where the distinction matters);
* `apply_time_offset` — `SpeedOptimizedConverter.apply_time_offset` (462-490),
  as the pure text-to-text transform it performs on the file content;
* `find_video_files`  — `SpeedOptimizedConverter.find_video_files` (333-342),
  over an abstract listing of the recursive directory walk;
* `process_video_optimized` / `process_videos` — the per-file pipeline and the
  batch loop (373-458 and 511-547), over per-file environment descriptions.

Python string primitives (`str.split`, `str.strip`, `in`, `int(...)`) are
modelled for ASCII input, which covers every string the claims mention.
-/

/-- Python whitespace characters stripped by `str.strip()` and `int()` (ASCII
subset: space, tab, newline, carriage return, vertical tab, form feed). -/
def isPySpace (c : Char) : Bool :=
  c = ' ' || c = '\t' || c = '\n' || c = '\r' || c = '\x0b' || c = '\x0c'

/-- `str.strip()` on an ASCII string: drop whitespace from both ends. -/
def pyStrip (s : String) : String :=
  String.mk (((s.data.dropWhile isPySpace).reverse.dropWhile isPySpace).reverse)

/-- Substring test on character lists: does `needle` occur contiguously in `l`?
Models Python's `needle in line`. -/
def containsSub : List Char → List Char → Bool
  | [], needle => needle.isEmpty
  | c :: rest, needle => needle.isPrefixOf (c :: rest) || containsSub rest needle

/-- Python's `pat in s` substring containment. -/
def strContains (s pat : String) : Bool :=
  containsSub s.data pat.data

/-- Worker for `pySplit`: scans left to right, closing the current chunk at
each non-overlapping occurrence of the separator `sep`.  The fuel argument is
initialised to the length of the scanned list, which the scan never exceeds,
so the fuel-exhausted branch is unreachable. -/
def pySplitAux (sep : List Char) : ℕ → List Char → List Char → List (List Char)
  | _, [], acc => [acc.reverse]
  | 0, l, acc => [acc.reverse ++ l]
  | fuel + 1, c :: rest, acc =>
    if sep ≠ [] && sep.isPrefixOf (c :: rest) then
      acc.reverse :: pySplitAux sep fuel (List.drop (sep.length - 1) rest) []
    else
      pySplitAux sep fuel rest (c :: acc)

/-- Python's `s.split(sep)` for a non-empty separator: greedy left-to-right
split on non-overlapping occurrences, keeping empty parts. -/
def pySplit (s sep : String) : List String :=
  (pySplitAux sep.data s.data.length s.data []).map String.mk

/-- Worker for `pyDigits`: digits with single underscores allowed between
digits, as accepted by Python's `int()`. -/
def pyDigitsAux : ℕ → List Char → Option ℕ
  | acc, [] => some acc
  | acc, '_' :: c :: rest =>
    if c.isDigit then pyDigitsAux (acc * 10 + (c.toNat - 48)) rest else none
  | acc, c :: rest =>
    if c.isDigit then pyDigitsAux (acc * 10 + (c.toNat - 48)) rest else none

/-- A non-empty run of ASCII digits (with Python's underscore grouping),
evaluated to its numeric value. -/
def pyDigits : List Char → Option ℕ
  | [] => none
  | c :: rest => if c.isDigit then pyDigitsAux (c.toNat - 48) rest else none

/-- Python's `int(s)` on an ASCII string: optional surrounding whitespace,
optional sign, then digits; `none` models the `ValueError` raised otherwise.
Python integers are unbounded, hence the result lives in `ℤ`. -/
def pyInt? (s : String) : Option ℤ :=
  let core := ((s.data.dropWhile isPySpace).reverse.dropWhile isPySpace).reverse
  match core with
  | '+' :: rest => (pyDigits rest).map (fun n => (n : ℤ))
  | '-' :: rest => (pyDigits rest).map (fun n => -(n : ℤ))
  | rest => (pyDigits rest).map (fun n => (n : ℤ))

/-- An SRT timestamp as the quadruple of integers produced by the parsing
phase of `adjust_time` (fields may be arbitrary integers there; the
serialising phase produces the documented ranges). -/
structure Timestamp where
  hours : ℤ
  minutes : ℤ
  seconds : ℤ
  milliseconds : ℤ
deriving DecidableEq

/-- The parsing phase of `adjust_time` (source lines 495-497):
`time_part, ms_part = time_str.split(',')` (exactly two parts or a
`ValueError`), `hours, minutes, seconds = map(int, time_part.split(':'))`
(exactly three parts or a `ValueError`), `milliseconds = int(ms_part)`. -/
def parseTimeStr (timeStr : String) : Option Timestamp :=
  match pySplit timeStr "," with
  | [timePart, msPart] =>
    match pySplit timePart ":" with
    | [hs, ms, ss] =>
      match pyInt? hs, pyInt? ms, pyInt? ss, pyInt? msPart with
      | some h, some m, some s, some mm => some ⟨h, m, s, mm⟩
      | _, _, _, _ => none
    | _ => none
  | _ => none

/-!
Rational arithmetic used inside the embedded definitions.

The standard `+ * / < ⌊·⌋` on `ℚ` in this library are hidden behind
abstraction barriers that block evaluation inside `decide`, so the embedded
code uses the following thin wrappers built directly on `mkRat`; each is
proved equal to the standard operation (`qAdd_eq` etc. below), and every
symbolic proof immediately rewrites to the standard operations.
-/

/-- The rational `n / d` for integer numerator and denominator. -/
def qOfFrac (n d : ℤ) : ℚ :=
  if 0 ≤ d then mkRat n d.toNat else mkRat (-n) (-d).toNat

/-- The rational value of an integer. -/
def qOfInt (n : ℤ) : ℚ := mkRat n 1

/-- Addition on `ℚ`. -/
def qAdd (x y : ℚ) : ℚ :=
  qOfFrac (x.num * (y.den : ℤ) + y.num * (x.den : ℤ)) ((x.den : ℤ) * (y.den : ℤ))

/-- Subtraction on `ℚ`. -/
def qSub (x y : ℚ) : ℚ :=
  qOfFrac (x.num * (y.den : ℤ) - y.num * (x.den : ℤ)) ((x.den : ℤ) * (y.den : ℤ))

/-- Multiplication on `ℚ`. -/
def qMul (x y : ℚ) : ℚ := qOfFrac (x.num * y.num) ((x.den : ℤ) * (y.den : ℤ))

/-- Division on `ℚ` (zero denominator yields `0`, as for `/` on `ℚ`). -/
def qDiv (x y : ℚ) : ℚ := qOfFrac (x.num * (y.den : ℤ)) ((x.den : ℤ) * y.num)

/-- Strict comparison on `ℚ` as a Boolean (denominators are positive, so
cross-multiplication is valid). -/
def qlt (x y : ℚ) : Bool := x.num * (y.den : ℤ) < y.num * (x.den : ℤ)

/-- The value of Python's `x % y` for real operands with `y > 0` (the result
of IEEE `fmod` is exact, so for in-range doubles this is also the exact value
the float code computes): `x - y * (x // y)` with `//` the floor division. -/
def qmod (x y : ℚ) : ℚ := qSub x (qMul y (qOfInt (Rat.floor (qDiv x y))))

/-- Python's `max(0, x)` (source line 500). -/
def pymax0 (x : ℚ) : ℚ := if qlt (qOfInt 0) x then x else qOfInt 0

/-- Total seconds of a timestamp, source line 499:
`hours * 3600 + minutes * 60 + seconds + milliseconds / 1000` (the first
three products are Python integer arithmetic, hence exact). -/
def totalSeconds (t : Timestamp) : ℚ :=
  qAdd (qOfInt (t.hours * 3600 + t.minutes * 60 + t.seconds))
    (qOfFrac t.milliseconds 1000)

/-- The arithmetic core of `adjust_time` (source lines 499-505) with the
float arithmetic carried out exactly over `ℚ`:
clamp `total_seconds + offset` at zero, then decompose by truncating
division/remainder (truncation coincides with `Rat.floor` since the clamped
total is non-negative, and `//` on floats is itself a floor division). -/
def shiftTimestamp (t : Timestamp) (offset : ℚ) : Timestamp :=
  let total : ℚ := pymax0 (qAdd (totalSeconds t) offset)
  { hours := Rat.floor (qDiv total (qOfInt 3600))
    minutes := Rat.floor (qDiv (qmod total (qOfInt 3600)) (qOfInt 60))
    seconds := Rat.floor (qmod total (qOfInt 60))
    milliseconds := Rat.floor (qMul (qmod total (qOfInt 1)) (qOfInt 1000)) }

/-- Zero-padded decimal rendering of a natural number, minimum width `w`. -/
def padNat (w : ℕ) (n : ℕ) : String :=
  let s := Nat.repr n
  if s.length < w then String.mk (List.replicate (w - s.length) '0') ++ s else s

/-- Python's `f"{n:0wd}"`: zero padding to minimum width `w`, the sign
counting toward the width. -/
def padInt (w : ℕ) (n : ℤ) : String :=
  if n < 0 then "-" ++ padNat (w - 1) n.natAbs else padNat w n.toNat

/-- The serialising phase of `adjust_time` (source line 507):
`f"{hours:02d}:{minutes:02d}:{seconds_int:02d},{milliseconds:03d}"`. -/
def formatTime (t : Timestamp) : String :=
  padInt 2 t.hours ++ ":" ++ padInt 2 t.minutes ++ ":" ++ padInt 2 t.seconds
    ++ "," ++ padInt 3 t.milliseconds

/-- `SpeedOptimizedConverter.adjust_time` (source lines 492-509) with the
arithmetic carried out over exact rationals — the real-number semantics of
the float code (`adjust_time_fp` below carries the binary64 rounding).  On
any parse failure the bare `except` returns the input unchanged; otherwise
the shifted timestamp is re-serialised. -/
def adjust_time (timeStr : String) (offset : ℚ) : String :=
  match parseTimeStr timeStr with
  | none => timeStr
  | some t => formatTime (shiftTimestamp t offset)

example : adjust_time "00:00:01,000" (mkRat 7 4) = "00:00:02,750" := by decide
example : adjust_time "00:00:01,000" (mkRat (-5) 1) = "00:00:00,000" := by decide
example : adjust_time "garbage" (mkRat 3 1) = "garbage" := by decide
example : adjust_time "00:00:01,001" (mkRat 0 1) = "00:00:01,001" := by decide

/-!
The binary64 model.

CPython floats are IEEE-754 binary64 values; every finite such value is a
rational number, and every arithmetic operation is the exact rational result
rounded to 53 significant bits (round to nearest, ties to even).  The model
below represents float values by the exact rationals they denote and applies
that rounding after each operation of `adjust_time`, exactly as CPython
evaluates it.  Overflow and subnormal underflow are not modelled: for every
value arising in a subtitle timestamp computation the inputs and results are
normal-range, where this model is exact.
-/

/-- Non-negative comparison on `ℚ` as a Boolean (cross-multiplication with
positive denominators). -/
def qle (x y : ℚ) : Bool := x.num * (y.den : ℤ) ≤ y.num * (x.den : ℤ)

/-- Fuel-driven base-2 logarithm on naturals (`⌊log₂ n⌋` for `n ≥ 1`; fuel
`n` always suffices since the argument at least halves each step). -/
def nlog2Fuel : ℕ → ℕ → ℕ
  | 0, _ => 0
  | fuel + 1, n => if 2 ≤ n then nlog2Fuel fuel (n / 2) + 1 else 0

/-- `⌊log₂ n⌋` for `n ≥ 1` (and `0` at `0`). -/
def nlog2 (n : ℕ) : ℕ := nlog2Fuel n n

/-- `2 ^ k` as a rational, for `k : ℤ`. -/
def pow2 (k : ℤ) : ℚ :=
  if 0 ≤ k then qOfInt (2 ^ k.toNat) else qOfFrac 1 (2 ^ (-k).toNat)

/-- The binade exponent of a positive rational: the unique `e` with
`2 ^ e ≤ q < 2 ^ (e + 1)`, located from the bit lengths of numerator and
denominator. -/
def binade (q : ℚ) : ℤ :=
  let d : ℤ := (nlog2 q.num.toNat : ℤ) - (nlog2 q.den : ℤ)
  if qle (pow2 d) q then d else d - 1

/-- Round a rational to the nearest integer, ties to even. -/
def rndTiesEven (s : ℚ) : ℤ :=
  let n := Rat.floor s
  let r := qSub s (qOfInt n)
  if qlt r (qOfFrac 1 2) then n
  else if qlt (qOfFrac 1 2) r then n + 1
  else if n % 2 = 0 then n else n + 1

/-- Round a positive rational to the nearest binary64 value (53-bit
significand, ties to even), assuming the result is in the normal range. -/
def fpRoundPos (q : ℚ) : ℚ :=
  let e := binade q
  qMul (qOfInt (rndTiesEven (qMul q (pow2 (52 - e))))) (pow2 (e - 52))

/-- Round a rational to the nearest binary64 value (normal range). -/
def fpRound (q : ℚ) : ℚ :=
  if q.num = 0 then qOfInt 0
  else if q.num < 0 then qSub (qOfInt 0) (fpRoundPos (qSub (qOfInt 0) q))
  else fpRoundPos q

/-- The arithmetic core of `adjust_time` (source lines 499-505) exactly as
CPython's binary64 floats evaluate it, for an `offset` that is itself a
binary64 value.  `ms / 1000` is int/int true division (correctly rounded);
the three integer products and sums are exact Python `int` arithmetic,
converted to float (with rounding) when added to the float `ms / 1000`;
`%` on floats is IEEE `fmod`, which is exact; `//` on non-negative in-range
floats yields the exact floor; `int()` on a non-negative float truncates,
i.e. floors. -/
def shiftTimestampFP (t : Timestamp) (offset : ℚ) : Timestamp :=
  let frac : ℚ := fpRound (qOfFrac t.milliseconds 1000)
  let whole : ℚ := fpRound (qOfInt (t.hours * 3600 + t.minutes * 60 + t.seconds))
  let total0 : ℚ := fpRound (qAdd whole frac)
  let total : ℚ := pymax0 (fpRound (qAdd total0 offset))
  { hours := Rat.floor (qDiv total (qOfInt 3600))
    minutes := Rat.floor (qDiv (qmod total (qOfInt 3600)) (qOfInt 60))
    seconds := Rat.floor (qmod total (qOfInt 60))
    milliseconds := Rat.floor (fpRound (qMul (qmod total (qOfInt 1)) (qOfInt 1000))) }

/-- `SpeedOptimizedConverter.adjust_time` (source lines 492-509) with the
float arithmetic modelled as exact binary64 rounding (`shiftTimestampFP`). -/
def adjust_time_fp (timeStr : String) (offset : ℚ) : String :=
  match parseTimeStr timeStr with
  | none => timeStr
  | some t => formatTime (shiftTimestampFP t offset)

/-- The binary64 value of `hours * 3600 + minutes * 60 + seconds +
milliseconds / 1000` (source line 499) — the float total before the offset
is added and the clamp applied; identical to the value `total0` computed
inside `shiftTimestampFP`. -/
def totalSecondsF (t : Timestamp) : ℚ :=
  fpRound (qAdd (fpRound (qOfInt (t.hours * 3600 + t.minutes * 60 + t.seconds)))
    (fpRound (qOfFrac t.milliseconds 1000)))

example : adjust_time_fp "00:00:01,001" (mkRat 0 1) = "00:00:01,000" := by decide
example : adjust_time_fp "00:00:01,000" (mkRat 7 4) = "00:00:02,750" := by decide
example : adjust_time_fp "00:00:02,500" (mkRat 7 4) = "00:00:04,250" := by decide
example : adjust_time_fp "00:00:01,000" (mkRat (-5) 1) = "00:00:00,000" := by decide
example : shiftTimestampFP ⟨0,0,1,1⟩ (mkRat (0) 1) = ⟨0,0,1,0⟩ := by decide
example : shiftTimestampFP ⟨0,0,1,999⟩ (mkRat (0) 1) = ⟨0,0,1,999⟩ := by decide
example : shiftTimestampFP ⟨1,59,59,7⟩ (mkRat (0) 1) = ⟨1,59,59,6⟩ := by decide
example : shiftTimestampFP ⟨10,2,3,29⟩ (mkRat (1) 2) = ⟨10,2,3,529⟩ := by decide
example : shiftTimestampFP ⟨0,0,0,0⟩ (mkRat (-9) 4) = ⟨0,0,0,0⟩ := by decide
example : shiftTimestampFP ⟨2,3,4,567⟩ (mkRat (3) 1) = ⟨2,3,7,567⟩ := by decide
example : shiftTimestampFP ⟨0,59,59,999⟩ (mkRat (1) 4) = ⟨1,0,0,248⟩ := by decide
example : shiftTimestampFP ⟨5,0,0,1⟩ (mkRat (-1) 2) = ⟨4,59,59,501⟩ := by decide
example : shiftTimestampFP ⟨0,0,2,500⟩ (mkRat (7) 4) = ⟨0,0,4,250⟩ := by decide
example : shiftTimestampFP ⟨27,46,39,999⟩ (mkRat (0) 1) = ⟨27,46,39,998⟩ := by decide
example : shiftTimestampFP ⟨0,0,1,3⟩ (mkRat (0) 1) = ⟨0,0,1,2⟩ := by decide
example : shiftTimestampFP ⟨1,0,0,1⟩ (mkRat (0) 1) = ⟨1,0,0,1⟩ := by decide

/-!
The offset transform over document text, `apply_time_offset` (462-490).
File reading/writing is outside the pure model: the function below is the
text-to-text transform the source applies between its read and its write.
-/

/-- The per-line step of `apply_time_offset`'s loop (source lines 474-484):
a line containing `-->` is stripped and split on the spaced arrow; exactly
two parts are rewritten through `adjust_time` and re-joined, anything else
passes through unchanged. -/
def applyOffsetLine (offset : ℚ) (line : String) : String :=
  if strContains line "-->" then
    match pySplit (pyStrip line) " --> " with
    | [a, b] => adjust_time a offset ++ " --> " ++ adjust_time b offset
    | _ => line
  else line

/-- `SpeedOptimizedConverter.apply_time_offset` (source lines 462-490) as the
pure transform of the file content: returns the content unchanged when the
offset is zero (the source returns before touching the file), otherwise maps
`applyOffsetLine` over the `\n`-split lines and re-joins them.
`offset.num = 0` is exactly Python's `offset_seconds == 0`. -/
def apply_time_offset (content : String) (offset : ℚ) : String :=
  if offset.num = 0 then content
  else String.intercalate "\n" ((pySplit content "\n").map (applyOffsetLine offset))

example : apply_time_offset "00:00:01,000 --> 00:00:02,500" (mkRat 7 4)
    = "00:00:02,750 --> 00:00:04,250" := by decide
example : apply_time_offset "00:00:01,000 --> 00:00:02,500" (mkRat (-5) 1)
    = "00:00:00,000 --> 00:00:00,000" := by decide
example : apply_time_offset "1\nhello\n\n00:00:01,000 --> 00:00:02,000\n" (mkRat 1 1)
    = "1\nhello\n\n00:00:02,000 --> 00:00:03,000\n" := by decide
example : applyOffsetLine (mkRat 1 1) "" = "" := by decide
example : applyOffsetLine (mkRat 1 1) "a-->b" = "a-->b" := by decide
example : applyOffsetLine (mkRat 1 1) "a --> b --> c" = "a --> b --> c" := by decide
example : applyOffsetLine (mkRat 1 1) "  00:00:01,000  -->  00:00:02,000  "
    = "00:00:02,000 --> 00:00:03,000" := by decide
example : applyOffsetLine (mkRat 1 1) " -->  --> " = " -->  --> " := by decide
example : applyOffsetLine (mkRat 1 1) "a --> " = "a --> " := by decide
example : applyOffsetLine (mkRat 1 1) " --> b" = " --> b" := by decide
example : applyOffsetLine (mkRat 1 1) "00:00:01,000 --> bad"
    = "00:00:02,000 --> bad" := by decide
example : applyOffsetLine (mkRat 1 1) "+01:02:03,004 --> 00:00:00,000"
    = "01:02:04,004 --> 00:00:01,000" := by decide
example : adjust_time_fp "+01:02:03,004" (mkRat 1 1) = "01:02:04,003" := by decide
example : applyOffsetLine (mkRat 1 1) "00:00:01,000-->00:00:02,000"
    = "00:00:01,000-->00:00:02,000" := by decide
example : adjust_time "1:2:3,4" (mkRat 1 1) = "01:02:04,004" := by decide
example : adjust_time_fp "1:2:3,4" (mkRat 1 1) = "01:02:04,003" := by decide

/-!
File discovery, `find_video_files` (333-342).

The recursive walk `folder_path.rglob('*')` is abstracted as a finite list of
filesystem entries (path string plus a file/directory flag); the function
filters the files whose `Path.suffix`, lowercased, is in the supported set,
and sorts the surviving paths (POSIX `Path` ordering is string ordering).
-/

/-- One entry of the recursive directory listing. -/
structure FSEntry where
  path : String
  isFile : Bool
deriving DecidableEq

/-- `self.video_formats` (source line 35). -/
def video_formats : List String :=
  [".mp4", ".avi", ".mkv", ".mov", ".wmv", ".flv", ".webm", ".m4v", ".mpg", ".mpeg"]

/-- The final component of a path (after the last `/`), as in `Path.name`. -/
def pathName (p : String) : String :=
  String.mk ((p.data.reverse.takeWhile (fun c => c ≠ '/')).reverse)

/-- `Path.suffix`: the final component's extension including its dot; empty
when there is no dot, when the only dot leads (a hidden file), or when the
dot trails. -/
def pathSuffix (p : String) : String :=
  let n := (pathName p).data
  let rev := n.reverse
  let ext := rev.takeWhile (fun c => c ≠ '.')
  if ext.length ≠ 0 && ext.length + 1 < rev.length
  then String.mk ('.' :: ext.reverse) else ""

/-- ASCII lowercasing, as `str.lower()` on the extensions involved. -/
def strLower (s : String) : String := String.mk (s.data.map Char.toLower)

/-- Lexicographic comparison of character lists by code point — CPython's
comparison of `str` values, and hence of `PosixPath` values in `sorted`. -/
def charListLe : List Char → List Char → Bool
  | [], _ => true
  | _ :: _, [] => false
  | a :: as, b :: bs =>
    if a.toNat = b.toNat then charListLe as bs else decide (a.toNat < b.toNat)

/-- Path ordering used by `sorted` on the discovered files. -/
def pathLe (a b : String) : Bool := charListLe a.data b.data

/-- The filter of `find_video_files` (source line 339):
`file_path.is_file() and file_path.suffix.lower() in self.video_formats`. -/
def isVideoEntry (e : FSEntry) : Bool :=
  e.isFile && video_formats.contains (strLower (pathSuffix e.path))

/-- `SpeedOptimizedConverter.find_video_files` (source lines 333-342):
filter the walk for video files and return them sorted (source line 342). -/
def find_video_files (entries : List FSEntry) : List String :=
  List.mergeSort ((entries.filter isVideoEntry).map FSEntry.path) pathLe

example : pathSuffix "f/a.MP4" = ".MP4" := by decide
example : pathSuffix "f/sub.dir/file" = "" := by decide
example : pathSuffix "f/sub.dir/file.MKV" = ".MKV" := by decide
example : pathSuffix "f/..hidden.mpg" = ".mpg" := by decide
example : strLower (pathSuffix "f/x.webM") = ".webm" := by decide
example : pyInt? "007" = some 7 := by decide
example : pyInt? " 42 " = some 42 := by decide
example : pyInt? "+5" = some 5 := by decide
example : pyInt? "-5" = some (-5) := by decide
example : pyInt? "1_0" = some 10 := by decide
example : pyInt? "1__0" = none := by decide
example : pyInt? "_1" = none := by decide
example : pyInt? "1_" = none := by decide
example : pyInt? "" = none := by decide
example : pyInt? "+" = none := by decide
example : pyInt? "- 5" = none := by decide
example : pyInt? "5 5" = none := by decide
example : pyInt? "0x1" = none := by decide
example : pathLe "f/B.avi" "f/a.MP4" = true := by decide
example : pathLe "f/a.MP4" "f/B.avi" = false := by decide
example : pathSuffix "f/.bashrc" = "" := by decide
example : pathSuffix "f/a." = "" := by decide
example : pathSuffix "f/archive.tar.mp4" = ".mp4" := by decide
example : pathSuffix "noext" = "" := by decide

/-!
Batch orchestration, `process_video_optimized` (373-458) and `process_videos`
(511-547).

The filesystem and the external transcriber are abstracted into a per-file
description `FileSpec`: whether the target subtitle already exists, the exit
code the transcriber would return, and whether the user's cooperative stop
flag (`self.processing`, cleared by `stop_processing`, line 592-595) is
observed to be false while this file's external process is being monitored
(lines 427-433).  Once the flag is observed false it stays false for the
rest of the run.
-/

/-- Environment description for one file of a batch. -/
structure FileSpec where
  srtExists : Bool
  exitCode : ℕ
  stopDuring : Bool
deriving DecidableEq

/-- Outcome of one file, as observable from `process_videos`: the Boolean
returned by `process_video_optimized` plus whether `process.terminate()` was
invoked (source line 432). -/
structure FileOutcome where
  returned : Bool
  terminated : Bool
deriving DecidableEq

/-- `SpeedOptimizedConverter.process_video_optimized` (source lines 373-458)
under the overwrite flag `self.remove_existing_var` (line 382):
skip with `return True` when the subtitle exists and overwrite is off
(382-384); `terminate` the process and `return False` when the stop flag is
observed during monitoring (427-433); a non-zero exit raises
`CalledProcessError` (437-438), caught at 453-455: `return False`;
otherwise `return True` (451).  Exceptions never escape: the bare handlers
turn every per-file fault into a `False` result. -/
def process_video_optimized (overwrite : Bool) (f : FileSpec) : FileOutcome :=
  if f.srtExists && !overwrite then ⟨true, false⟩
  else if f.stopDuring then ⟨false, true⟩
  else if f.exitCode ≠ 0 then ⟨false, false⟩
  else ⟨true, false⟩

/-- Terminal condition of a batch run.  `failed` models the outer handler of
`process_videos` (556-557), reachable only through a fault in the
orchestrator's own bookkeeping, never from a per-file outcome. -/
inductive RunState where
  | completed
  | stoppedByUser
  | failed
deriving DecidableEq

/-- Aggregate result of `process_videos`: the local `success_count`
(line 531, 538-539), the field `self.files_processed` (line 526, 541), the
terminal state, and how many external processes were terminated. -/
structure RunResult where
  success_count : ℕ
  files_processed : ℕ
  state : RunState
  terminated_count : ℕ
deriving DecidableEq

/-- The loop of `process_videos` (source lines 533-541): at the top of each
iteration the cleared stop flag breaks out (534-536, the `StoppedByUser`
exit); otherwise the file is processed, a `True` return bumps
`success_count` (538-539) and `files_processed` always bumps (541). -/
def processVideosLoop (overwrite : Bool) :
    List FileSpec → Bool → ℕ → ℕ → ℕ → RunResult
  | [], _, succ, proc, term => ⟨succ, proc, RunState.completed, term⟩
  | f :: rest, processing, succ, proc, term =>
    if processing then
      let o := process_video_optimized overwrite f
      processVideosLoop overwrite rest (processing && !o.terminated)
        (if o.returned then succ + 1 else succ) (proc + 1)
        (if o.terminated then term + 1 else term)
    else ⟨succ, proc, RunState.stoppedByUser, term⟩

/-- `SpeedOptimizedConverter.process_videos` (source lines 511-547) for a
discovered batch of files: the run begins with `files_processed = 0` and the
stop flag still true (set at line 571 before the worker starts). -/
def process_videos (overwrite : Bool) (files : List FileSpec) : RunResult :=
  processVideosLoop overwrite files true 0 0 0

example : process_videos false [⟨true, 0, false⟩] = ⟨1, 1, .completed, 0⟩ := by decide
example : process_videos true [⟨false, 0, false⟩, ⟨false, 1, false⟩, ⟨false, 0, false⟩]
    = ⟨2, 3, .completed, 0⟩ := by decide
example : process_videos true [⟨false, 0, false⟩, ⟨false, 0, true⟩, ⟨false, 0, false⟩]
    = ⟨1, 2, .stoppedByUser, 1⟩ := by decide

/-- The mathematical form of Python's `%` on reals with a positive modulus. -/
def rmod (x y : ℚ) : ℚ := x - y * (⌊x / y⌋ : ℚ)

/-- Modelled from the spec: the shape of a well-formed, already-normalized
`HH:MM:SS,mmm` timestamp string — at least two digits of hours (width is a
minimum), exactly two digits of minutes and of seconds, exactly three digits
of milliseconds, separated by colons and a comma. -/
def isNormalizedTimeStr (x : String) : Bool :=
  match pySplit x "," with
  | [tp, mp] =>
    (match pySplit tp ":" with
     | [hs, ms, ss] =>
       decide (2 ≤ hs.length) && hs.data.all Char.isDigit &&
       decide (ms.length = 2) && ms.data.all Char.isDigit &&
       decide (ss.length = 2) && ss.data.all Char.isDigit
     | _ => false)
    && decide (mp.length = 3) && mp.data.all Char.isDigit
  | _ => false

/-!
Bridge lemmas: each computational wrapper equals the standard operation.
-/

theorem qOfFrac_eq (n d : ℤ) : qOfFrac n d = (n : ℚ) / (d : ℚ) := by
  unfold qOfFrac
  split
  · next h =>
    rw [Rat.mkRat_eq_div]
    congr 1
    exact_mod_cast congrArg (fun z : ℤ => (z : ℚ)) (Int.toNat_of_nonneg h)
  · next h =>
    rw [Rat.mkRat_eq_div]
    have h' : (0 : ℤ) ≤ -d := by omega
    have : (((-d).toNat : ℤ) : ℚ) = ((-d : ℤ) : ℚ) := by
      exact_mod_cast congrArg (fun z : ℤ => (z : ℚ)) (Int.toNat_of_nonneg h')
    push_cast at this ⊢
    rw [this]
    rw [neg_div_neg_eq]

theorem qOfInt_eq (n : ℤ) : qOfInt n = (n : ℚ) := by
  unfold qOfInt; exact Rat.mkRat_one n

theorem qAdd_eq (x y : ℚ) : qAdd x y = x + y := by
  unfold qAdd
  rw [qOfFrac_eq]
  have hx : ((x.den : ℚ)) ≠ 0 := by exact_mod_cast x.den_nz
  have hy : ((y.den : ℚ)) ≠ 0 := by exact_mod_cast y.den_nz
  rw [show x + y = (x.num : ℚ) / x.den + (y.num : ℚ) / y.den by
    rw [Rat.num_div_den, Rat.num_div_den]]
  field_simp
  try push_cast
  try ring

theorem qSub_eq (x y : ℚ) : qSub x y = x - y := by
  unfold qSub
  rw [qOfFrac_eq]
  have hx : ((x.den : ℚ)) ≠ 0 := by exact_mod_cast x.den_nz
  have hy : ((y.den : ℚ)) ≠ 0 := by exact_mod_cast y.den_nz
  rw [show x - y = (x.num : ℚ) / x.den - (y.num : ℚ) / y.den by
    rw [Rat.num_div_den, Rat.num_div_den]]
  field_simp
  try push_cast
  try ring

theorem qMul_eq (x y : ℚ) : qMul x y = x * y := by
  unfold qMul
  rw [qOfFrac_eq]
  have hx : ((x.den : ℚ)) ≠ 0 := by exact_mod_cast x.den_nz
  have hy : ((y.den : ℚ)) ≠ 0 := by exact_mod_cast y.den_nz
  rw [show x * y = ((x.num : ℚ) / x.den) * ((y.num : ℚ) / y.den) by
    rw [Rat.num_div_den, Rat.num_div_den]]
  field_simp
  try push_cast
  try ring

theorem qDiv_eq (x y : ℚ) : qDiv x y = x / y := by
  unfold qDiv
  rcases eq_or_ne y 0 with rfl | hy0
  · simp [qOfFrac_eq]
  · rw [qOfFrac_eq]
    have hx : ((x.den : ℚ)) ≠ 0 := by exact_mod_cast x.den_nz
    have hy : ((y.den : ℚ)) ≠ 0 := by exact_mod_cast y.den_nz
    have hyn : ((y.num : ℚ)) ≠ 0 := by
      exact_mod_cast Rat.num_ne_zero.mpr hy0
    rw [show x / y = ((x.num : ℚ) / x.den) / ((y.num : ℚ) / y.den) by
      rw [Rat.num_div_den, Rat.num_div_den]]
    field_simp
    try push_cast
    try ring

theorem qlt_iff (x y : ℚ) : qlt x y = true ↔ x < y := by
  unfold qlt
  have hx : (0 : ℚ) < (x.den : ℚ) := by exact_mod_cast x.pos
  have hy : (0 : ℚ) < (y.den : ℚ) := by exact_mod_cast y.pos
  rw [decide_eq_true_eq]
  rw [show x < y ↔ (x.num : ℚ) / x.den < (y.num : ℚ) / y.den by
    rw [Rat.num_div_den, Rat.num_div_den]]
  rw [div_lt_div_iff₀ hx hy]
  exact_mod_cast Iff.rfl

theorem qle_iff (x y : ℚ) : qle x y = true ↔ x ≤ y := by
  unfold qle
  have hx : (0 : ℚ) < (x.den : ℚ) := by exact_mod_cast x.pos
  have hy : (0 : ℚ) < (y.den : ℚ) := by exact_mod_cast y.pos
  rw [decide_eq_true_eq]
  rw [show x ≤ y ↔ (x.num : ℚ) / x.den ≤ (y.num : ℚ) / y.den by
    rw [Rat.num_div_den, Rat.num_div_den]]
  rw [div_le_div_iff₀ hx hy]
  exact_mod_cast Iff.rfl

theorem ratFloor_eq (q : ℚ) : (Rat.floor q : ℤ) = ⌊q⌋ :=
  (Rat.floor_def' q).trans Rat.floor_def.symm

theorem qmod_eq (x y : ℚ) : qmod x y = rmod x y := by
  unfold qmod rmod
  rw [qSub_eq, qMul_eq, qOfInt_eq, ratFloor_eq, qDiv_eq]

theorem pymax0_eq (x : ℚ) : pymax0 x = max 0 x := by
  unfold pymax0
  rcases lt_or_le 0 x with h | h
  · rw [if_pos, max_eq_right h.le]
    rw [qlt_iff, qOfInt_eq]; push_cast; exact h
  · rw [if_neg, max_eq_left h, qOfInt_eq]; push_cast; rfl
    rw [qlt_iff, qOfInt_eq]; push_cast; exact not_lt.mpr h

theorem totalSeconds_eq (t : Timestamp) :
    totalSeconds t = (t.hours : ℚ) * 3600 + (t.minutes : ℚ) * 60
      + (t.seconds : ℚ) + (t.milliseconds : ℚ) / 1000 := by
  unfold totalSeconds
  rw [qAdd_eq, qOfInt_eq, qOfFrac_eq]
  push_cast
  ring

theorem rmod_nonneg (x : ℚ) {y : ℚ} (hy : 0 < y) : 0 ≤ rmod x y := by
  unfold rmod
  have h1 : (⌊x / y⌋ : ℚ) ≤ x / y := Int.floor_le _
  have h2 : y * (⌊x / y⌋ : ℚ) ≤ y * (x / y) := by
    exact mul_le_mul_of_nonneg_left h1 hy.le
  rw [mul_div_cancel₀ x hy.ne.symm] at h2
  linarith

theorem rmod_lt (x : ℚ) {y : ℚ} (hy : 0 < y) : rmod x y < y := by
  unfold rmod
  have h1 : x / y < (⌊x / y⌋ : ℚ) + 1 := Int.lt_floor_add_one _
  have h2 : y * (x / y) < y * ((⌊x / y⌋ : ℚ) + 1) := by
    exact mul_lt_mul_of_pos_left h1 hy
  rw [mul_div_cancel₀ x hy.ne.symm] at h2
  nlinarith

/-- Fields of `shiftTimestamp` in the standard mathematical operations. -/
theorem shiftTimestamp_fields (t : Timestamp) (o : ℚ) :
    shiftTimestamp t o =
      { hours := ⌊max 0 (totalSeconds t + o) / 3600⌋
        minutes := ⌊rmod (max 0 (totalSeconds t + o)) 3600 / 60⌋
        seconds := ⌊rmod (max 0 (totalSeconds t + o)) 60⌋
        milliseconds := ⌊rmod (max 0 (totalSeconds t + o)) 1 * 1000⌋ } := by
  unfold shiftTimestamp
  simp only [qAdd_eq, pymax0_eq, qmod_eq, qDiv_eq, qMul_eq, qOfInt_eq, ratFloor_eq]
  push_cast
  rfl

/-- Floor of a quotient along an exact decomposition of the dividend. -/
theorem floor_div_decomp {T y R : ℚ} (a : ℤ) (hy : 0 < y)
    (hT : T = (a : ℚ) * y + R) (h0 : 0 ≤ R) (h1 : R < y) : ⌊T / y⌋ = a := by
  rw [hT]
  rw [show ((a : ℚ) * y + R) / y = (a : ℚ) + R / y by field_simp]
  rw [Int.floor_int_add]
  rw [Int.floor_eq_zero_iff.mpr ⟨div_nonneg h0 hy.le, (div_lt_one hy).mpr h1⟩]
  exact add_zero a

/-- Floor along an exact integer-plus-fraction decomposition. -/
theorem floor_decomp {x R : ℚ} (a : ℤ) (hx : x = (a : ℚ) + R)
    (h0 : 0 ≤ R) (h1 : R < 1) : ⌊x⌋ = a := by
  rw [hx, Int.floor_int_add, Int.floor_eq_zero_iff.mpr ⟨h0, h1⟩]
  exact add_zero a

/-- `rmod` along a known floor of the quotient. -/
theorem rmod_decomp {T y R : ℚ} (a : ℤ) (hy : 0 < y)
    (hT : T = (a : ℚ) * y + R) (h0 : 0 ≤ R) (h1 : R < y) : rmod T y = R := by
  unfold rmod
  rw [floor_div_decomp a hy hT h0 h1, hT]
  ring

/-!
Facts about the binary64 rounding model, needed to carry the shift
invariant over the float arithmetic the source actually performs.
-/

theorem pow2_eq (k : ℤ) : pow2 k = (2 : ℚ) ^ k := by
  unfold pow2
  split
  · next h =>
    rw [qOfInt_eq]
    push_cast
    rw [← zpow_natCast (2 : ℚ) k.toNat, Int.toNat_of_nonneg h]
  · next h =>
    rw [qOfFrac_eq]
    push_cast
    rw [← zpow_natCast (2 : ℚ) (-k).toNat, Int.toNat_of_nonneg (by omega), zpow_neg]
    rw [one_div, inv_inv]

theorem pow2_pos (k : ℤ) : 0 < pow2 k := by
  rw [pow2_eq]; exact zpow_pos (by norm_num) k

theorem pow2_mono {a b : ℤ} (h : a ≤ b) : pow2 a ≤ pow2 b := by
  rw [pow2_eq, pow2_eq]; exact zpow_le_zpow_right₀ (by norm_num) h

theorem pow2_mul (a b : ℤ) : pow2 a * pow2 b = pow2 (a + b) := by
  rw [pow2_eq, pow2_eq, pow2_eq]; exact (zpow_add₀ (by norm_num) a b).symm

theorem pow2_natCast (n : ℕ) : pow2 (n : ℤ) = (2 : ℚ) ^ n := by
  rw [pow2_eq, zpow_natCast]

theorem pow2_natCast_succ (n : ℕ) : pow2 ((n : ℤ) + 1) = (2 : ℚ) ^ (n + 1) := by
  rw [show ((n : ℤ) + 1) = ((n + 1 : ℕ) : ℤ) from by push_cast; ring, pow2_natCast]

theorem nlog2Fuel_spec :
    ∀ (fuel n : ℕ), n ≤ fuel → 1 ≤ n →
      2 ^ nlog2Fuel fuel n ≤ n ∧ n < 2 ^ (nlog2Fuel fuel n + 1) := by
  intro fuel
  induction fuel with
  | zero => intro n h1 h2; exact absurd h2 (by omega)
  | succ fuel ih =>
    intro n hle h1
    by_cases h2 : 2 ≤ n
    · obtain ⟨f1, f2⟩ := ih (n / 2) (by omega) (by omega)
      unfold nlog2Fuel
      rw [if_pos h2]
      rw [pow_succ] at f2
      constructor
      · rw [pow_succ]; omega
      · rw [pow_succ, pow_succ]; omega
    · unfold nlog2Fuel
      rw [if_neg h2]
      constructor
      · simpa using h1
      · simpa using by omega

theorem nlog2_spec (n : ℕ) (h : 1 ≤ n) :
    2 ^ nlog2 n ≤ n ∧ n < 2 ^ (nlog2 n + 1) :=
  nlog2Fuel_spec n n le_rfl h

theorem binade_spec (q : ℚ) (hq : 0 < q) :
    pow2 (binade q) ≤ q ∧ q < pow2 (binade q + 1) := by
  have hnum : 0 < q.num := Rat.num_pos.mpr hq
  have hden : 0 < q.den := q.pos
  have ha1 : 1 ≤ q.num.toNat := by omega
  obtain ⟨hA1, hA2⟩ := nlog2_spec q.num.toNat ha1
  obtain ⟨hB1, hB2⟩ := nlog2_spec q.den hden
  have hq_eq : q = (q.num.toNat : ℚ) / (q.den : ℚ) := by
    rw [show ((q.num.toNat : ℕ) : ℚ) = ((q.num : ℤ) : ℚ) from by
      exact_mod_cast congrArg (fun z : ℤ => (z : ℚ)) (Int.toNat_of_nonneg hnum.le)]
    exact (Rat.num_div_den q).symm
  have hbQ : (0 : ℚ) < (q.den : ℚ) := by exact_mod_cast hden
  have hup : q < pow2 ((nlog2 q.num.toNat : ℤ) - (nlog2 q.den : ℤ) + 1) := by
    nth_rewrite 1 [hq_eq]
    rw [div_lt_iff₀ hbQ]
    calc (q.num.toNat : ℚ) < 2 ^ (nlog2 q.num.toNat + 1) := by exact_mod_cast hA2
    _ = pow2 ((nlog2 q.num.toNat : ℤ) + 1) := (pow2_natCast_succ _).symm
    _ = pow2 ((nlog2 q.num.toNat : ℤ) - (nlog2 q.den : ℤ) + 1) * pow2 (nlog2 q.den : ℤ) := by
        rw [pow2_mul]; congr 1; ring
    _ ≤ pow2 ((nlog2 q.num.toNat : ℤ) - (nlog2 q.den : ℤ) + 1) * (q.den : ℚ) := by
        apply mul_le_mul_of_nonneg_left _ (pow2_pos _).le
        rw [pow2_natCast]
        exact_mod_cast hB1
  have hlo : pow2 ((nlog2 q.num.toNat : ℤ) - (nlog2 q.den : ℤ) - 1) ≤ q := by
    nth_rewrite 3 [hq_eq]
    rw [le_div_iff₀ hbQ]
    have h1 : (q.den : ℚ) ≤ 2 ^ (nlog2 q.den + 1) := by exact_mod_cast hB2.le
    calc pow2 ((nlog2 q.num.toNat : ℤ) - (nlog2 q.den : ℤ) - 1) * (q.den : ℚ)
        ≤ pow2 ((nlog2 q.num.toNat : ℤ) - (nlog2 q.den : ℤ) - 1)
            * pow2 ((nlog2 q.den : ℤ) + 1) := by
          rw [pow2_natCast_succ]
          exact mul_le_mul_of_nonneg_left h1 (pow2_pos _).le
    _ = pow2 (nlog2 q.num.toNat : ℤ) := by rw [pow2_mul]; congr 1; ring
    _ ≤ (q.num.toNat : ℚ) := by rw [pow2_natCast]; exact_mod_cast hA1
  have hb : binade q
      = (if qle (pow2 ((nlog2 q.num.toNat : ℤ) - (nlog2 q.den : ℤ))) q
         then (nlog2 q.num.toNat : ℤ) - (nlog2 q.den : ℤ)
         else (nlog2 q.num.toNat : ℤ) - (nlog2 q.den : ℤ) - 1) := rfl
  rw [hb]
  by_cases hc : qle (pow2 ((nlog2 q.num.toNat : ℤ) - (nlog2 q.den : ℤ))) q
  · rw [if_pos hc]
    exact ⟨(qle_iff _ _).mp hc, hup⟩
  · rw [if_neg hc]
    have hlt : q < pow2 ((nlog2 q.num.toNat : ℤ) - (nlog2 q.den : ℤ)) :=
      not_le.mp (fun h => hc ((qle_iff _ _).mpr h))
    refine ⟨hlo, ?_⟩
    rw [sub_add_cancel]
    exact hlt

theorem pow2_zero : pow2 0 = 1 := by
  rw [pow2_eq, zpow_zero]

theorem pow2_neg_one : pow2 (-1) = 1 / 2 := by
  rw [pow2_eq]; norm_num

theorem pow2_neg53_le_half : pow2 (-53) ≤ 1 / 2 := by
  have h := pow2_mono (show (-53 : ℤ) ≤ -1 by norm_num)
  rwa [pow2_neg_one] at h

theorem pow2_53_cast : ((2 ^ 53 : ℤ) : ℚ) = pow2 53 := by
  rw [pow2_eq, show (53 : ℤ) = ((53 : ℕ) : ℤ) from by norm_num, zpow_natCast]
  push_cast
  norm_num

theorem rmod_one_eq (x : ℚ) : rmod x 1 = x - (⌊x⌋ : ℚ) := by
  unfold rmod
  rw [div_one, one_mul]

theorem rndTiesEven_cases (s : ℚ) :
    rndTiesEven s = ⌊s⌋ ∨ rndTiesEven s = ⌊s⌋ + 1 := by
  have h : rndTiesEven s =
      (if qlt (qSub s (qOfInt (Rat.floor s))) (qOfFrac 1 2) then Rat.floor s
       else if qlt (qOfFrac 1 2) (qSub s (qOfInt (Rat.floor s))) then Rat.floor s + 1
       else if Rat.floor s % 2 = 0 then Rat.floor s else Rat.floor s + 1) := rfl
  rw [h, ratFloor_eq]
  split
  · exact Or.inl rfl
  · split
    · exact Or.inr rfl
    · split
      · exact Or.inl rfl
      · exact Or.inr rfl

theorem rndTiesEven_cast_le (s : ℚ) : (rndTiesEven s : ℚ) ≤ s + 1 / 2 := by
  have hfl : (⌊s⌋ : ℚ) ≤ s := Int.floor_le s
  have h : rndTiesEven s =
      (if qlt (qSub s (qOfInt (Rat.floor s))) (qOfFrac 1 2) then Rat.floor s
       else if qlt (qOfFrac 1 2) (qSub s (qOfInt (Rat.floor s))) then Rat.floor s + 1
       else if Rat.floor s % 2 = 0 then Rat.floor s else Rat.floor s + 1) := rfl
  rw [h, ratFloor_eq]
  split
  · linarith
  · next h1 =>
    have hr : (1 : ℚ) / 2 ≤ s - (⌊s⌋ : ℚ) := by
      have h2 := not_lt.mp (fun hh => h1 ((qlt_iff _ _).mpr hh))
      rw [qSub_eq, qOfInt_eq, qOfFrac_eq] at h2
      push_cast at h2
      linarith
    split
    · push_cast; linarith
    · split
      · linarith
      · push_cast; linarith

theorem fpRoundPos_repr (q : ℚ) (hq : 0 < q) :
    ∃ n : ℤ, 0 ≤ n ∧ n ≤ 2 ^ 53 ∧ fpRoundPos q = (n : ℚ) * pow2 (binade q - 52) := by
  obtain ⟨hb1, hb2⟩ := binade_spec q hq
  have hdef : fpRoundPos q
      = qMul (qOfInt (rndTiesEven (qMul q (pow2 (52 - binade q))))) (pow2 (binade q - 52)) := rfl
  have hs_eq : qMul q (pow2 (52 - binade q)) = q * pow2 (52 - binade q) := qMul_eq _ _
  have hge : (0 : ℚ) ≤ qMul q (pow2 (52 - binade q)) := by
    rw [hs_eq]; exact mul_nonneg hq.le (pow2_pos _).le
  have hfl : 0 ≤ ⌊qMul q (pow2 (52 - binade q))⌋ := Int.floor_nonneg.mpr hge
  have hlt : qMul q (pow2 (52 - binade q)) < ((2 ^ 53 : ℤ) : ℚ) := by
    rw [hs_eq, pow2_53_cast]
    calc q * pow2 (52 - binade q) < pow2 (binade q + 1) * pow2 (52 - binade q) :=
          mul_lt_mul_of_pos_right hb2 (pow2_pos _)
    _ = pow2 53 := by rw [pow2_mul]; congr 1; ring
  have hfl2 : ⌊qMul q (pow2 (52 - binade q))⌋ < 2 ^ 53 := Int.floor_lt.mpr hlt
  refine ⟨rndTiesEven (qMul q (pow2 (52 - binade q))), ?_, ?_, ?_⟩
  · rcases rndTiesEven_cases (qMul q (pow2 (52 - binade q))) with h | h <;> omega
  · rcases rndTiesEven_cases (qMul q (pow2 (52 - binade q))) with h | h <;> omega
  · rw [hdef, qMul_eq, qOfInt_eq]

theorem fpRoundPos_nonneg {q : ℚ} (hq : 0 < q) : 0 ≤ fpRoundPos q := by
  obtain ⟨n, hn0, _, heq⟩ := fpRoundPos_repr q hq
  rw [heq]
  exact mul_nonneg (by exact_mod_cast hn0) (pow2_pos _).le

theorem fpRoundPos_le {q : ℚ} :
    fpRoundPos q ≤ q + pow2 (binade q - 53) := by
  have hdef : fpRoundPos q
      = qMul (qOfInt (rndTiesEven (qMul q (pow2 (52 - binade q))))) (pow2 (binade q - 52)) := rfl
  rw [hdef]
  simp only [qMul_eq, qOfInt_eq]
  have hb := rndTiesEven_cast_le (qMul q (pow2 (52 - binade q)))
  rw [qMul_eq] at hb
  calc ((rndTiesEven (q * pow2 (52 - binade q)) : ℤ) : ℚ) * pow2 (binade q - 52)
      ≤ (q * pow2 (52 - binade q) + 1 / 2) * pow2 (binade q - 52) :=
        mul_le_mul_of_nonneg_right hb (pow2_pos _).le
  _ = q * (pow2 (52 - binade q) * pow2 (binade q - 52)) + 1 / 2 * pow2 (binade q - 52) := by
      ring
  _ = q + pow2 (binade q - 53) := by
      rw [pow2_mul, show 52 - binade q + (binade q - 52) = (0 : ℤ) from by ring, pow2_zero,
        mul_one]
      congr 1
      rw [show (1 : ℚ) / 2 = pow2 (-1) from pow2_neg_one.symm, pow2_mul]
      congr 1
      ring

theorem fpRound_zero : fpRound 0 = 0 := by
  unfold fpRound
  rw [if_pos (Rat.num_eq_zero.mpr rfl), qOfInt_eq]
  exact Int.cast_zero

theorem fpRound_pos_eq {q : ℚ} (hq : 0 < q) : fpRound q = fpRoundPos q := by
  have hnum := Rat.num_pos.mpr hq
  unfold fpRound
  rw [if_neg (by omega), if_neg (by omega)]

theorem fpRound_nonneg {q : ℚ} (hq : 0 ≤ q) : 0 ≤ fpRound q := by
  rcases eq_or_lt_of_le hq with h | h
  · rw [← h, fpRound_zero]
  · rw [fpRound_pos_eq h]
    exact fpRoundPos_nonneg h

theorem fpRound_nonpos {q : ℚ} (hq : q ≤ 0) : fpRound q ≤ 0 := by
  rcases eq_or_lt_of_le hq with h | h
  · rw [h, fpRound_zero]
  · have hnum : q.num < 0 :=
      lt_of_not_ge (fun hge => absurd (Rat.num_nonneg.mp hge) (not_le.mpr h))
    unfold fpRound
    rw [if_neg (by omega), if_pos hnum]
    simp only [qSub_eq, qOfInt_eq]
    push_cast
    have hpos : (0 : ℚ) < 0 - q := by linarith
    have hnn := fpRoundPos_nonneg hpos
    linarith

theorem frac_double_le {n e : ℤ} (hn0 : 0 ≤ n) (hn1 : n ≤ 2 ^ 53) :
    rmod ((n : ℚ) * pow2 (e - 52)) 1 ≤ 1 - pow2 (-53) := by
  have hp53 : pow2 (-53) ≤ 1 / 2 := pow2_neg53_le_half
  rcases le_or_lt 52 e with he | he
  · have hint : (n : ℚ) * pow2 (e - 52) = ((n * 2 ^ (e - 52).toNat : ℤ) : ℚ) := by
      rw [pow2_eq]
      push_cast
      rw [← zpow_natCast (2 : ℚ) (e - 52).toNat, Int.toNat_of_nonneg (by omega)]
    rw [hint, rmod_one_eq, Int.floor_intCast, sub_self]
    linarith
  · rcases le_or_lt (-1) e with he2 | he2
    · have hj1 : 1 ≤ (52 - e).toNat := by omega
      have hj2 : (52 - e).toNat ≤ 53 := by omega
      set j : ℕ := (52 - e).toNat with hjdef
      have hTeq : (n : ℚ) * pow2 (e - 52) = (n : ℚ) / ((2 ^ j : ℕ) : ℚ) := by
        rw [pow2_eq, show (e - 52 : ℤ) = -(j : ℤ) from by omega, zpow_neg, zpow_natCast]
        push_cast
        rw [div_eq_mul_inv]
      rw [hTeq, rmod_one_eq, Rat.floor_intCast_div_natCast]
      have hD : (0 : ℤ) < ((2 ^ j : ℕ) : ℤ) := by positivity
      have hmod1 : n % ((2 ^ j : ℕ) : ℤ) < ((2 ^ j : ℕ) : ℤ) := Int.emod_lt_of_pos n hD
      have hdm := Int.ediv_add_emod n ((2 ^ j : ℕ) : ℤ)
      have hDQ : (0 : ℚ) < ((2 ^ j : ℕ) : ℚ) := by positivity
      have heq : (n : ℚ) / ((2 ^ j : ℕ) : ℚ) - ((n / ((2 ^ j : ℕ) : ℤ) : ℤ) : ℚ)
          = ((n % ((2 ^ j : ℕ) : ℤ) : ℤ) : ℚ) / ((2 ^ j : ℕ) : ℚ) := by
        have hdmQ : ((2 ^ j : ℕ) : ℚ) * ((n / ((2 ^ j : ℕ) : ℤ) : ℤ) : ℚ)
            + ((n % ((2 ^ j : ℕ) : ℤ) : ℤ) : ℚ) = (n : ℚ) := by exact_mod_cast hdm
        field_simp
        push_cast at hdmQ ⊢
        linarith
      rw [heq]
      have hbound : ((n % ((2 ^ j : ℕ) : ℤ) : ℤ) : ℚ) ≤ ((2 ^ j : ℕ) : ℚ) - 1 := by
        have hz : n % ((2 ^ j : ℕ) : ℤ) ≤ ((2 ^ j : ℕ) : ℤ) - 1 := by omega
        exact_mod_cast hz
      have hstep : ((n % ((2 ^ j : ℕ) : ℤ) : ℤ) : ℚ) / ((2 ^ j : ℕ) : ℚ)
          ≤ 1 - 1 / ((2 ^ j : ℕ) : ℚ) := by
        rw [div_le_iff₀ hDQ]
        calc ((n % ((2 ^ j : ℕ) : ℤ) : ℤ) : ℚ) ≤ ((2 ^ j : ℕ) : ℚ) - 1 := hbound
        _ = (1 - 1 / ((2 ^ j : ℕ) : ℚ)) * ((2 ^ j : ℕ) : ℚ) := by field_simp
      have hlast : 1 / ((2 ^ j : ℕ) : ℚ) = pow2 (-(j : ℤ)) := by
        rw [pow2_eq, zpow_neg, zpow_natCast, one_div]
        norm_cast
      have hmono : pow2 (-53 : ℤ) ≤ pow2 (-(j : ℤ)) := pow2_mono (by omega)
      rw [hlast] at hstep
      linarith
    · have hT0 : (0 : ℚ) ≤ (n : ℚ) * pow2 (e - 52) :=
        mul_nonneg (by exact_mod_cast hn0) (pow2_pos _).le
      have hn1Q : (n : ℚ) ≤ ((2 ^ 53 : ℤ) : ℚ) := by exact_mod_cast hn1
      have hTle : (n : ℚ) * pow2 (e - 52) ≤ 1 / 2 := by
        calc (n : ℚ) * pow2 (e - 52) ≤ pow2 53 * pow2 (e - 52) := by
              apply mul_le_mul_of_nonneg_right _ (pow2_pos _).le
              rw [← pow2_53_cast]; exact hn1Q
        _ = pow2 (e + 1) := by rw [pow2_mul]; congr 1; ring
        _ ≤ pow2 (-1) := pow2_mono (by omega)
        _ = 1 / 2 := pow2_neg_one
      rw [rmod_one_eq]
      have hfl : ⌊(n : ℚ) * pow2 (e - 52)⌋ = 0 :=
        Int.floor_eq_zero_iff.mpr (Set.mem_Ico.mpr ⟨hT0, by linarith⟩)
      rw [hfl]
      push_cast
      linarith

theorem ms_floor_bound {T : ℚ}
    (hT : T = 0 ∨ ∃ n e : ℤ, 0 ≤ n ∧ n ≤ 2 ^ 53 ∧ T = (n : ℚ) * pow2 (e - 52)) :
    0 ≤ ⌊fpRound (rmod T 1 * 1000)⌋ ∧ ⌊fpRound (rmod T 1 * 1000)⌋ < 1000 := by
  have h1 : 0 ≤ rmod T 1 := rmod_nonneg T one_pos
  have h2 : rmod T 1 ≤ 1 - pow2 (-53) := by
    rcases hT with h | ⟨n, e, hn0, hn1, heq⟩
    · rw [h]
      have hz : rmod 0 1 = 0 := by unfold rmod; norm_num
      rw [hz]
      have := pow2_neg53_le_half
      linarith
    · rw [heq]; exact frac_double_le hn0 hn1
  have hv0 : 0 ≤ rmod T 1 * 1000 := mul_nonneg h1 (by norm_num)
  have hvle : rmod T 1 * 1000 ≤ 1000 - 1000 * pow2 (-53) := by linarith
  constructor
  · exact Int.floor_nonneg.mpr (fpRound_nonneg hv0)
  · apply Int.floor_lt.mpr
    push_cast
    rcases eq_or_lt_of_le hv0 with h | h
    · rw [← h, fpRound_zero]; norm_num
    · rw [fpRound_pos_eq h]
      have hble := fpRoundPos_le (q := rmod T 1 * 1000)
      have hbv : binade (rmod T 1 * 1000) ≤ 9 := by
        by_contra hb
        push_neg at hb
        have hpow := pow2_mono (show (10 : ℤ) ≤ binade (rmod T 1 * 1000) by omega)
        have hsp := (binade_spec _ h).1
        have h1024 : pow2 10 = 1024 := by rw [pow2_eq]; norm_num
        rw [h1024] at hpow
        have hp53 := pow2_pos (-53)
        linarith
      have hmono : pow2 (binade (rmod T 1 * 1000) - 53) ≤ pow2 (-44) := pow2_mono (by omega)
      have key : pow2 (-44) < 1000 * pow2 (-53) := by
        have h9 : pow2 (-44) = 512 * pow2 (-53) := by
          rw [pow2_eq, pow2_eq]; norm_num
        rw [h9]
        have := pow2_pos (-53)
        nlinarith
      linarith

/-- Fields of `shiftTimestampFP` in the standard mathematical operations. -/
theorem shiftTimestampFP_fields (t : Timestamp) (o : ℚ) :
    shiftTimestampFP t o =
      { hours := ⌊max 0 (fpRound (totalSecondsF t + o)) / 3600⌋
        minutes := ⌊rmod (max 0 (fpRound (totalSecondsF t + o))) 3600 / 60⌋
        seconds := ⌊rmod (max 0 (fpRound (totalSecondsF t + o))) 60⌋
        milliseconds :=
          ⌊fpRound (rmod (max 0 (fpRound (totalSecondsF t + o))) 1 * 1000)⌋ } := by
  unfold shiftTimestampFP totalSecondsF
  simp only [qAdd_eq, pymax0_eq, qmod_eq, qDiv_eq, qMul_eq, qOfInt_eq, ratFloor_eq]
  push_cast
  rfl

/-- C4: for every timestamp `t` and every offset `o` (arbitrarily large
negative offsets included), `shift(t, o)` — modelled by `shiftTimestampFP`,
the exact embedding of the source's binary64 float arithmetic — never yields
a negative total time; an offset at or below the negated (float) timestamp
magnitude clamps the result to exactly `00:00:00,000`; and the result always
satisfies the invariant `0 ≤ minutes < 60`, `0 ≤ seconds < 60`,
`0 ≤ milliseconds < 1000`, `hours ≥ 0`. -/
theorem c4_shift_clamps_and_invariant (t : Timestamp) (o : ℚ) :
    0 ≤ (shiftTimestampFP t o).hours ∧
    (0 ≤ (shiftTimestampFP t o).minutes ∧ (shiftTimestampFP t o).minutes < 60) ∧
    (0 ≤ (shiftTimestampFP t o).seconds ∧ (shiftTimestampFP t o).seconds < 60) ∧
    (0 ≤ (shiftTimestampFP t o).milliseconds ∧
      (shiftTimestampFP t o).milliseconds < 1000) ∧
    0 ≤ totalSeconds (shiftTimestampFP t o) ∧
    (totalSecondsF t + o ≤ 0 → shiftTimestampFP t o = ⟨0, 0, 0, 0⟩) := by
  rw [shiftTimestampFP_fields]
  set x : ℚ := totalSecondsF t + o with hxdef
  set T : ℚ := max 0 (fpRound x) with hTdef
  have hT : 0 ≤ T := le_max_left 0 _
  have hh : 0 ≤ ⌊T / 3600⌋ := Int.floor_nonneg.mpr (div_nonneg hT (by norm_num))
  have hm0 : 0 ≤ ⌊rmod T 3600 / 60⌋ :=
    Int.floor_nonneg.mpr (div_nonneg (rmod_nonneg T (by norm_num)) (by norm_num))
  have hm1 : ⌊rmod T 3600 / 60⌋ < 60 := by
    apply Int.floor_lt.mpr
    rw [div_lt_iff₀ (by norm_num : (0:ℚ) < 60)]
    calc rmod T 3600 < 3600 := rmod_lt T (by norm_num)
    _ = 60 * 60 := by norm_num
    _ ≤ (60 : ℤ) * 60 := by norm_num
  have hs0 : 0 ≤ ⌊rmod T 60⌋ := Int.floor_nonneg.mpr (rmod_nonneg T (by norm_num))
  have hs1 : ⌊rmod T 60⌋ < 60 := by
    apply Int.floor_lt.mpr
    calc rmod T 60 < 60 := rmod_lt T (by norm_num)
    _ ≤ ((60 : ℤ) : ℚ) := by norm_num
  have hrep : T = 0 ∨ ∃ n e : ℤ, 0 ≤ n ∧ n ≤ 2 ^ 53 ∧ T = (n : ℚ) * pow2 (e - 52) := by
    rcases le_or_lt (fpRound x) 0 with hle | hgt
    · exact Or.inl (by rw [hTdef]; exact max_eq_left hle)
    · have hx : 0 < x := by
        by_contra hc
        push_neg at hc
        exact absurd (fpRound_nonpos hc) (not_le.mpr hgt)
      obtain ⟨n, hn0, hn1, heq⟩ := fpRoundPos_repr x hx
      refine Or.inr ⟨n, binade x, hn0, hn1, ?_⟩
      rw [hTdef, max_eq_right hgt.le, fpRound_pos_eq hx, heq]
  obtain ⟨hms0, hms1⟩ := ms_floor_bound hrep
  refine ⟨hh, ⟨hm0, hm1⟩, ⟨hs0, hs1⟩, ⟨hms0, hms1⟩, ?_, ?_⟩
  · rw [totalSeconds_eq]
    have c1 : (0:ℚ) ≤ (⌊T / 3600⌋ : ℚ) := by exact_mod_cast hh
    have c2 : (0:ℚ) ≤ (⌊rmod T 3600 / 60⌋ : ℚ) := by exact_mod_cast hm0
    have c3 : (0:ℚ) ≤ (⌊rmod T 60⌋ : ℚ) := by exact_mod_cast hs0
    have c4 : (0:ℚ) ≤ (⌊fpRound (rmod T 1 * 1000)⌋ : ℚ) := by exact_mod_cast hms0
    have : (0:ℚ) ≤ (⌊fpRound (rmod T 1 * 1000)⌋ : ℚ) / 1000 := by positivity
    nlinarith
  · intro hle
    have hT0 : T = 0 := by rw [hTdef]; exact max_eq_left (fpRound_nonpos hle)
    rw [hT0]
    have hz : rmod 0 3600 = 0 := by unfold rmod; norm_num
    have hz2 : rmod 0 60 = 0 := by unfold rmod; norm_num
    have hz3 : rmod 0 1 = 0 := by unfold rmod; norm_num
    rw [hz, hz2, hz3, zero_mul, fpRound_zero]
    norm_num

theorem c4_witness :
    shiftTimestampFP ⟨0, 0, 1, 0⟩ (mkRat (-5) 1) = ⟨0, 0, 0, 0⟩ := by
  have h := (c4_shift_clamps_and_invariant ⟨0, 0, 1, 0⟩ (mkRat (-5) 1)).2.2.2.2.2
  apply h
  have h1 : totalSecondsF ⟨0, 0, 1, 0⟩ = qOfInt 1 := by decide
  rw [h1, qOfInt_eq, show (mkRat (-5) 1 : ℚ) = ((-5 : ℤ) : ℚ) from Rat.mkRat_one (-5)]
  push_cast
  norm_num

/-- C3 (amended): in exact arithmetic the zero shift is the identity — for
every in-range timestamp, `shiftTimestamp t 0 = t`, and in particular the
exact-arithmetic `adjust_time` maps `00:00:01,001` at offset `0` to itself.
(The implementation's binary64 arithmetic violates the literal claim; see the
counterexample.) -/
theorem c3_zero_shift_exact_identity :
    (∀ t : Timestamp, 0 ≤ t.hours → 0 ≤ t.minutes → t.minutes < 60 →
      0 ≤ t.seconds → t.seconds < 60 → 0 ≤ t.milliseconds → t.milliseconds < 1000 →
      shiftTimestamp t 0 = t) ∧
    adjust_time "00:00:01,001" (mkRat 0 1) = "00:00:01,001" := by
  constructor
  · rintro ⟨h, m, s, ms⟩ hh0 hm0 hm1 hs0 hs1 hms0 hms1
    simp only at hh0 hm0 hm1 hs0 hs1 hms0 hms1
    have Qh : (0:ℚ) ≤ (h:ℚ) := by exact_mod_cast hh0
    have Qm0 : (0:ℚ) ≤ (m:ℚ) := by exact_mod_cast hm0
    have Qm1 : (m:ℚ) ≤ 59 := by exact_mod_cast (by omega : m ≤ 59)
    have Qs0 : (0:ℚ) ≤ (s:ℚ) := by exact_mod_cast hs0
    have Qs1 : (s:ℚ) ≤ 59 := by exact_mod_cast (by omega : s ≤ 59)
    have Qx0 : (0:ℚ) ≤ (ms:ℚ) := by exact_mod_cast hms0
    have Qx1 : (ms:ℚ) ≤ 999 := by exact_mod_cast (by omega : ms ≤ 999)
    have Qf0 : (0:ℚ) ≤ (ms:ℚ) / 1000 := by positivity
    have Qf1 : (ms:ℚ) / 1000 < 1 := by
      rw [div_lt_one (by norm_num : (0:ℚ) < 1000)]; linarith
    rw [shiftTimestamp_fields]
    set T : ℚ := max 0 (totalSeconds ⟨h, m, s, ms⟩ + 0) with hTdef
    have htot : totalSeconds ⟨h, m, s, ms⟩
        = (h:ℚ) * 3600 + (m:ℚ) * 60 + (s:ℚ) + (ms:ℚ) / 1000 := totalSeconds_eq _
    have hnn : 0 ≤ totalSeconds ⟨h, m, s, ms⟩ + 0 := by
      rw [add_zero, htot]; linarith
    have hT1 : T = (h:ℚ) * 3600 + ((m:ℚ) * 60 + ((s:ℚ) + (ms:ℚ) / 1000)) := by
      rw [hTdef, max_eq_right hnn, add_zero, htot]; ring
    have hR2a : 0 ≤ (s:ℚ) + (ms:ℚ) / 1000 := by linarith
    have hR2b : (s:ℚ) + (ms:ℚ) / 1000 < 60 := by linarith
    have hR1a : 0 ≤ (m:ℚ) * 60 + ((s:ℚ) + (ms:ℚ) / 1000) := by linarith
    have hR1b : (m:ℚ) * 60 + ((s:ℚ) + (ms:ℚ) / 1000) < 3600 := by linarith
    have ehours : ⌊T / 3600⌋ = h :=
      floor_div_decomp h (by norm_num) hT1 hR1a hR1b
    have er1 : rmod T 3600 = (m:ℚ) * 60 + ((s:ℚ) + (ms:ℚ) / 1000) :=
      rmod_decomp h (by norm_num) hT1 hR1a hR1b
    have eminutes : ⌊rmod T 3600 / 60⌋ = m := by
      rw [er1]
      exact floor_div_decomp m (by norm_num) rfl hR2a hR2b
    have hT2 : T = ((60 * h + m : ℤ):ℚ) * 60 + ((s:ℚ) + (ms:ℚ) / 1000) := by
      rw [hT1]; push_cast; ring
    have er2 : rmod T 60 = (s:ℚ) + (ms:ℚ) / 1000 :=
      rmod_decomp (60 * h + m) (by norm_num) hT2 hR2a hR2b
    have eseconds : ⌊rmod T 60⌋ = s := by
      rw [er2]
      exact floor_decomp s rfl Qf0 Qf1
    have hT3 : T = ((3600 * h + 60 * m + s : ℤ):ℚ) * 1 + (ms:ℚ) / 1000 := by
      rw [hT1]; push_cast; ring
    have er3 : rmod T 1 = (ms:ℚ) / 1000 :=
      rmod_decomp (3600 * h + 60 * m + s) (by norm_num) hT3 Qf0 Qf1
    have ems : ⌊rmod T 1 * 1000⌋ = ms := by
      rw [er3, div_mul_cancel₀ ((ms:ℚ)) (by norm_num : (1000:ℚ) ≠ 0)]
      exact Int.floor_intCast ms
    rw [ehours, eminutes, eseconds, ems]
  · decide

theorem c3_witness : shiftTimestamp ⟨0, 0, 1, 1⟩ 0 = ⟨0, 0, 1, 1⟩ :=
  c3_zero_shift_exact_identity.1 ⟨0, 0, 1, 1⟩ (by decide) (by decide) (by decide)
    (by decide) (by decide) (by decide) (by decide)

/-- C3 (counterexample): the implementation's binary64 arithmetic breaks the
zero-offset identity — `adjust_time` on the valid, normalized timestamp
`00:00:01,001` with offset `0` returns `00:00:01,000`, one millisecond low
(`1 + 1/1000` is not a binary64 value, and the truncation `int((total % 1) *
1000)` lands on `0.99999999999998…· 1000`). -/
theorem c3_counterexample :
    adjust_time_fp "00:00:01,001" (mkRat 0 1) = "00:00:01,000" ∧
    adjust_time_fp "00:00:01,001" (mkRat 0 1) ≠ "00:00:01,001" := by
  constructor
  · decide
  · decide

/-- C5: the documented examples of the offset transform — the timing line
`00:00:01,000 --> 00:00:02,500` at offset `+1.75` (the binary64 value
`mkRat 7 4`) becomes `00:00:02,750 --> 00:00:04,250`, and at offset `-5`
both endpoints clamp to `00:00:00,000`; the binary64 evaluation agrees with
the exact one on these inputs (all values involved are representable). -/
theorem c5_offset_examples :
    (mkRat 7 4 : ℚ) = 7 / 4 ∧ (mkRat (-5) 1 : ℚ) = -5 ∧
    apply_time_offset "00:00:01,000 --> 00:00:02,500" (mkRat 7 4)
      = "00:00:02,750 --> 00:00:04,250" ∧
    apply_time_offset "00:00:01,000 --> 00:00:02,500" (mkRat (-5) 1)
      = "00:00:00,000 --> 00:00:00,000" ∧
    adjust_time_fp "00:00:01,000" (mkRat 7 4) = "00:00:02,750" ∧
    adjust_time_fp "00:00:02,500" (mkRat 7 4) = "00:00:04,250" ∧
    adjust_time_fp "00:00:01,000" (mkRat (-5) 1) = "00:00:00,000" ∧
    adjust_time_fp "00:00:02,500" (mkRat (-5) 1) = "00:00:00,000" := by
  refine ⟨?_, ?_, by decide, by decide, by decide, by decide, by decide, by decide⟩
  · rw [Rat.mkRat_eq_div]; norm_num
  · rw [Rat.mkRat_one]; norm_num

/-- C6: the transform works line by line on the `\n`-split document, and a
line that does not contain the cue arrow, or whose stripped form does not
split into exactly two parts around ` --> `, passes through byte-identical
(blank lines and sequence-number lines included). -/
theorem c6_non_timing_lines_unchanged :
    (∀ (content : String) (o : ℚ), o ≠ 0 →
      apply_time_offset content o
        = String.intercalate "\n" ((pySplit content "\n").map (applyOffsetLine o))) ∧
    (∀ (o : ℚ) (line : String),
      strContains line "-->" = false ∨ (pySplit (pyStrip line) " --> ").length ≠ 2 →
      applyOffsetLine o line = line) := by
  constructor
  · intro content o ho
    unfold apply_time_offset
    rw [if_neg (by exact fun h => ho (Rat.num_eq_zero.mp h))]
  · intro o line h
    unfold applyOffsetLine
    rcases h with h | h
    · rw [h]; rfl
    · by_cases hc : strContains line "-->"
      · rw [if_pos hc]
        rcases hsp : pySplit (pyStrip line) " --> " with _ | ⟨a, _ | ⟨b, _ | ⟨c, tl⟩⟩⟩
        · rfl
        · rfl
        · rw [hsp] at h; exact absurd rfl h
        · rfl
      · rw [if_neg hc]

theorem c6_witness :
    applyOffsetLine (mkRat 1 1) "42" = "42" ∧
    apply_time_offset "a\nb" (mkRat 1 1)
      = String.intercalate "\n" ((pySplit "a\nb" "\n").map (applyOffsetLine (mkRat 1 1))) := by
  constructor
  · exact c6_non_timing_lines_unchanged.2 (mkRat 1 1) "42" (Or.inl (by decide))
  · exact c6_non_timing_lines_unchanged.1 "a\nb" (mkRat 1 1)
      (by rw [Rat.mkRat_one]; norm_num)

/-- C8 (counterexample): `0:0:1,000` is not a well-formed `HH:MM:SS,mmm`
string, yet `adjust_time` decodes it (Python's `int()` accepts the one-digit
fields) and rewrites it — under exact and binary64 arithmetic alike — instead
of returning it unchanged. -/
theorem c8_counterexample :
    isNormalizedTimeStr "0:0:1,000" = false ∧
    adjust_time "0:0:1,000" (mkRat 2 1) = "00:00:03,000" ∧
    adjust_time_fp "0:0:1,000" (mkRat 2 1) = "00:00:03,000" ∧
    ("00:00:03,000" : String) ≠ "0:0:1,000" := by
  exact ⟨by decide, by decide, by decide, by decide⟩

/-- C8 (amended): `adjust_time` never raises (it is total) and returns its
input unchanged exactly when decoding fails (the split/`int()` pipeline of
lines 495-497); decoding, however, accepts more than well-formed
`HH:MM:SS,mmm` strings, so some malformed inputs are rewritten rather than
passed through. -/
theorem c8_parse_failure_unchanged :
    (∀ (x : String) (o : ℚ), parseTimeStr x = none → adjust_time x o = x) ∧
    adjust_time "0:0:1,000" (mkRat 2 1) ≠ "0:0:1,000" := by
  constructor
  · intro x o h
    unfold adjust_time
    rw [h]
  · decide

theorem c8_witness : adjust_time "hello" (mkRat 5 1) = "hello" :=
  c8_parse_failure_unchanged.1 "hello" (mkRat 5 1) (by decide)

/-- C10 (counterexample): the line `x  -->  y` contains the arrow and its
stripped form splits into exactly the two halves `x ` and ` y`; neither half
decodes, each is reproduced verbatim, so the emitted line keeps the extra
spacing around the separator — it is not rebuilt from whitespace-stripped
halves as the claim states. -/
theorem c10_counterexample :
    strContains "x  -->  y" "-->" = true ∧
    pySplit (pyStrip "x  -->  y") " --> " = ["x ", " y"] ∧
    applyOffsetLine (mkRat 1 1) "x  -->  y" = "x  -->  y" ∧
    ("x  -->  y" : String) ≠ "x --> y" := by
  exact ⟨by decide, by decide, by decide, by decide⟩

/-- C10 (amended): a line that contains the arrow and whose whole-line-
stripped form splits on ` --> ` into exactly two halves is emitted as
`adjust_time`-of-first ++ ` --> ` ++ `adjust_time`-of-second; an unparseable
half is reproduced verbatim (whitespace it contains included), so only the
line's leading and trailing whitespace is removed, not the spacing adjacent
to the separator. -/
theorem c10_two_part_rebuild :
    (∀ (o : ℚ) (line a b : String),
      strContains line "-->" = true →
      pySplit (pyStrip line) " --> " = [a, b] →
      applyOffsetLine o line = adjust_time a o ++ " --> " ++ adjust_time b o) ∧
    applyOffsetLine (mkRat 1 1) "  x  -->  y " = "x  -->  y" := by
  constructor
  · intro o line a b h1 h2
    unfold applyOffsetLine
    rw [if_pos h1, h2]
  · decide

theorem c10_witness :
    applyOffsetLine (mkRat 2 1) "a --> b"
      = adjust_time "a" (mkRat 2 1) ++ " --> " ++ adjust_time "b" (mkRat 2 1) :=
  c10_two_part_rebuild.1 (mkRat 2 1) "a --> b" "a" "b" (by decide) (by decide)

theorem charListLe_trans :
    ∀ (x y z : List Char), charListLe x y = true → charListLe y z = true →
      charListLe x z = true := by
  intro x
  induction x with
  | nil => intro y z _ _; rfl
  | cons a as ih =>
    intro y z hxy hyz
    cases y with
    | nil => simp [charListLe] at hxy
    | cons b bs =>
      cases z with
      | nil => simp [charListLe] at hyz
      | cons c cs =>
        unfold charListLe at hxy hyz ⊢
        by_cases e1 : a.toNat = b.toNat
        · rw [if_pos e1] at hxy
          by_cases e2 : b.toNat = c.toNat
          · rw [if_pos e2] at hyz
            rw [if_pos (e1.trans e2)]
            exact ih bs cs hxy hyz
          · rw [if_neg e2, decide_eq_true_eq] at hyz
            rw [if_neg (by omega), decide_eq_true_eq]
            omega
        · rw [if_neg e1, decide_eq_true_eq] at hxy
          by_cases e2 : b.toNat = c.toNat
          · rw [if_neg (by omega), decide_eq_true_eq]
            omega
          · rw [if_neg e2, decide_eq_true_eq] at hyz
            rw [if_neg (by omega), decide_eq_true_eq]
            omega

theorem charListLe_total :
    ∀ (x y : List Char), (charListLe x y || charListLe y x) = true := by
  intro x
  induction x with
  | nil => intro y; rfl
  | cons a as ih =>
    intro y
    cases y with
    | nil => rfl
    | cons b bs =>
      unfold charListLe
      by_cases e1 : a.toNat = b.toNat
      · rw [if_pos e1, if_pos e1.symm]
        exact ih bs
      · rw [if_neg e1, if_neg (fun h => e1 h.symm)]
        simp only [Bool.or_eq_true, decide_eq_true_eq]
        omega

/-- C9: for every directory listing, `find_video_files` returns a list that
is sorted by path (code-point lexicographic order, CPython's path ordering)
and contains exactly the paths of the file entries whose extension matches
the fixed set case-insensitively; on the documented example listing
(`a.MP4`, `b.txt`, `sub/`, `sub/c.mkv`) it returns `[a.MP4, sub/c.mkv]` in
sorted path order. -/
theorem c9_find_video_files_spec :
    (∀ entries : List FSEntry,
      List.Pairwise (fun a b : String => pathLe a b = true) (find_video_files entries) ∧
      (∀ p : String, p ∈ find_video_files entries ↔
        ∃ e, e ∈ entries ∧ e.isFile = true ∧
          video_formats.contains (strLower (pathSuffix e.path)) = true ∧ e.path = p)) ∧
    find_video_files
        [⟨"vids/a.MP4", true⟩, ⟨"vids/b.txt", true⟩, ⟨"vids/sub", false⟩,
         ⟨"vids/sub/c.mkv", true⟩]
      = ["vids/a.MP4", "vids/sub/c.mkv"] := by
  constructor
  · intro entries
    constructor
    · exact List.sorted_mergeSort
        (fun a b c hab hbc => charListLe_trans a.data b.data c.data hab hbc)
        (fun a b => charListLe_total a.data b.data)
        ((entries.filter isVideoEntry).map FSEntry.path)
    · intro p
      unfold find_video_files
      rw [List.mem_mergeSort, List.mem_map]
      constructor
      · rintro ⟨e, he, rfl⟩
        rw [List.mem_filter] at he
        have hv := he.2
        unfold isVideoEntry at hv
        rw [Bool.and_eq_true] at hv
        exact ⟨e, he.1, hv.1, hv.2, rfl⟩
      · rintro ⟨e, he, hf, hext, rfl⟩
        refine ⟨e, ?_, rfl⟩
        rw [List.mem_filter]
        refine ⟨he, ?_⟩
        unfold isVideoEntry
        rw [Bool.and_eq_true]
        exact ⟨hf, hext⟩
  · unfold find_video_files
    rw [show ([⟨"vids/a.MP4", true⟩, ⟨"vids/b.txt", true⟩, ⟨"vids/sub", false⟩,
         ⟨"vids/sub/c.mkv", true⟩] : List FSEntry).filter isVideoEntry
        = [⟨"vids/a.MP4", true⟩, ⟨"vids/sub/c.mkv", true⟩] from by decide]
    rw [show ([⟨"vids/a.MP4", true⟩, ⟨"vids/sub/c.mkv", true⟩] : List FSEntry).map
          FSEntry.path = ["vids/a.MP4", "vids/sub/c.mkv"] from rfl]
    exact List.mergeSort_of_sorted (by decide)

/-- Events with no stop request leave the loop running to exhaustion:
`success_count` counts exactly the files that were skipped (subtitle present,
overwrite off) or transcribed with exit code zero, every file is counted in
`files_processed`, the run completes, and no process is terminated. -/
theorem processVideosLoop_no_stop (overwrite : Bool) :
    ∀ (files : List FileSpec), (∀ f ∈ files, f.stopDuring = false) →
    ∀ (succ proc term : ℕ),
    processVideosLoop overwrite files true succ proc term =
      ⟨succ + files.countP (fun f => (f.srtExists && !overwrite) || f.exitCode == 0),
       proc + files.length, RunState.completed, term⟩ := by
  intro files
  induction files with
  | nil => intro _ succ proc term; simp [processVideosLoop]
  | cons f rest ih =>
    intro h succ proc term
    have hf : f.stopDuring = false := h f (List.mem_cons_self f rest)
    have hrest : ∀ g ∈ rest, g.stopDuring = false :=
      fun g hg => h g (List.mem_cons_of_mem f hg)
    have hout : process_video_optimized overwrite f
        = ⟨(f.srtExists && !overwrite) || f.exitCode == 0, false⟩ := by
      unfold process_video_optimized
      rw [hf]
      by_cases h1 : f.srtExists && !overwrite
      · rw [if_pos h1, h1]
        simp
      · rw [if_neg h1]
        rw [Bool.not_eq_true] at h1
        rw [h1]
        by_cases h2 : f.exitCode ≠ 0
        · rw [if_neg (by simp)]
          rw [if_pos h2]
          simp [h2]
        · rw [if_neg (by simp)]
          rw [if_neg h2]
          push_neg at h2
          simp [h2]
    by_cases hr : ((f.srtExists && !overwrite) || f.exitCode == 0) = true
    · rw [hr] at hout
      unfold processVideosLoop
      rw [if_pos rfl, hout]
      show processVideosLoop overwrite rest true (succ + 1) (proc + 1) term = _
      rw [ih hrest (succ + 1) (proc + 1) term,
        List.countP_cons_of_pos _ _ (by exact hr), List.length_cons]
      simp only [RunResult.mk.injEq, and_true, true_and]
      omega
    · rw [Bool.not_eq_true] at hr
      rw [hr] at hout
      unfold processVideosLoop
      rw [if_pos rfl, hout]
      show processVideosLoop overwrite rest true succ (proc + 1) term = _
      rw [ih hrest succ (proc + 1) term,
        List.countP_cons_of_neg _ _ (by simp [hr]), List.length_cons]
      simp only [RunResult.mk.injEq, and_true, true_and]
      omega

/-- C1 (counterexample): with overwrite disabled, a batch of one file whose
subtitle already exists plus one file that transcribes successfully ends with
`success_count = 2`, although only one transcription actually succeeded — the
skip is returned as `True` (line 384) and counted as a success (538-539),
not as a distinct third outcome. -/
theorem c1_counterexample :
    (process_videos false [⟨true, 0, false⟩, ⟨false, 0, false⟩]).success_count = 2 ∧
    ([⟨true, 0, false⟩, ⟨false, 0, false⟩] : List FileSpec).countP
        (fun f => !f.srtExists && f.exitCode == 0) = 1 ∧
    (2 : ℕ) ≠ 1 := by
  exact ⟨by decide, by decide, by decide⟩

/-- C1 (amended): with overwrite disabled and no stop request, a skipped file
counts as processed and also as a success: the final `success_count` equals
the number of files that were either skipped (existing subtitle) or
transcribed with exit code zero, and `files_processed` counts every file;
in particular a batch consisting of one skipped file (whose transcriber
would even have failed) completes with `success_count = 1`. -/
theorem c1_skip_counted_as_success :
    (∀ files : List FileSpec, (∀ f ∈ files, f.stopDuring = false) →
      (process_videos false files).success_count
          = files.countP (fun f => f.srtExists || f.exitCode == 0) ∧
      (process_videos false files).files_processed = files.length ∧
      (process_videos false files).state = RunState.completed) ∧
    process_videos false [⟨true, 1, false⟩] = ⟨1, 1, .completed, 0⟩ := by
  constructor
  · intro files h
    unfold process_videos
    rw [processVideosLoop_no_stop false files h 0 0 0]
    refine ⟨?_, by simp, rfl⟩
    simp only [Nat.zero_add]
    congr 1
    funext f
    cases f.srtExists <;> simp
  · decide

theorem c1_witness :
    (process_videos false [⟨true, 1, false⟩]).success_count
        = ([⟨true, 1, false⟩] : List FileSpec).countP
            (fun f => f.srtExists || f.exitCode == 0) ∧
    (process_videos false [⟨true, 1, false⟩]).files_processed = 1 ∧
    (process_videos false [⟨true, 1, false⟩]).state = RunState.completed :=
  c1_skip_counted_as_success.1 [⟨true, 1, false⟩] (by decide)

/-- C2 (counterexample): in the stop-during-file-2 scenario on a three-file
batch, the final `files_processed` is `2`, not `1` — line 541 increments it
for the stopped file 2 as well, so `files_processed` does not reflect only
file 1 as fully counted. -/
theorem c2_counterexample :
    (process_videos true
        [⟨false, 0, false⟩, ⟨false, 0, true⟩, ⟨false, 0, false⟩]).files_processed = 2 ∧
    (2 : ℕ) ≠ 1 := by
  exact ⟨by decide, by decide⟩

/-- C2 (amended): `stop()` observed while file 2 of 3 is mid-transcription
makes the run break out to the stopped-by-user exit after terminating file
2's external process (one termination recorded); file 3 is never started;
the success count reflects only file 1; `files_processed` itself ends at 2,
counting the stopped file 2 as processed though not as a success. -/
theorem c2_stop_scenario :
    process_videos true [⟨false, 0, false⟩, ⟨false, 0, true⟩, ⟨false, 0, false⟩]
      = ⟨1, 2, .stoppedByUser, 1⟩ := by
  decide

/-- C7: a non-zero transcriber exit for one file is never fatal — in the
three-file batch whose second file exits non-zero, file 3 is still processed,
the final success count is 2, and the run completes (it does not stop and
the `Failed` exit of the outer handler is not taken); in general any
stop-free batch processes every file and completes. -/
theorem c7_failure_not_fatal :
    (process_videos true [⟨false, 0, false⟩, ⟨false, 1, false⟩, ⟨false, 0, false⟩]
        = ⟨2, 3, .completed, 0⟩) ∧
    (∀ files : List FileSpec, (∀ f ∈ files, f.stopDuring = false) →
      (process_videos true files).state = RunState.completed ∧
      (process_videos true files).files_processed = files.length) := by
  constructor
  · decide
  · intro files h
    unfold process_videos
    rw [processVideosLoop_no_stop true files h 0 0 0]
    exact ⟨rfl, by simp⟩

theorem c7_witness :
    (process_videos true [⟨false, 1, false⟩]).state = RunState.completed ∧
    (process_videos true [⟨false, 1, false⟩]).files_processed = 1 :=
  c7_failure_not_fatal.2 [⟨false, 1, false⟩] (by decide)
